import Mathlib

/-!
Shallow embedding of `pkg/kubelet/commitclass/commitclass_manager.go`.

The file embeds the commit-class resolution engine: the typed policy data
model (`CommitClass`, `CommitClassSpec`, `ResourceCommitPercent`), the
`Settings` value type with its `Set` and `Scale` operations, the resource
whitelist with `validResource`, and `GetCommitSettings`, which decodes the
informer store's snapshot, sorts the decoded policies by name, applies the
first matching policy's resources and returns the resulting settings.

External collaborators are embedded at the granularity the code uses them:
the informer store's snapshot is a `List StoreItem` argument, the
label-selector matching primitive is an opaque boolean predicate carried
inside each policy, and the resource-quantity type is a milli-precision
integer quantity. Go's `float64` arithmetic inside `Settings` is modelled
as exact rational arithmetic; the spots where that model can diverge from
IEEE double rounding are flagged at the corresponding theorems.
-/

/-- Byte-wise lexicographic comparison of character lists, mirroring Go's
built-in `<`/`<=` on strings (UTF-8 byte order coincides with code-point
order, so comparing `Char` sequences is faithful). -/
def charListLe : List Char → List Char → Bool
  | [], _ => true
  | _ :: _, [] => false
  | c :: cs, d :: ds => if c = d then charListLe cs ds else decide (c < d)

/-- Go's byte-wise `a <= b` on strings. -/
def stringLeb (a b : String) : Bool := charListLe a.data b.data

/-- A node's label map (`map[string]string`), as an association list. -/
abbrev Labels := List (String × String)

/-- Modelled from the spec: the external label-selector matching primitive
(`v1helper.MatchNodeSelectorTerms` together with the term grammar) is an
opaque pure function from a label set to match/no-match, so a selector term
is represented by its match predicate. -/
def NodeSelectorTerm : Type := Labels → Bool

/-- Modelled from the spec: the matcher applied to a list of terms matches
when some term matches; node fields are always passed empty and are omitted. -/
def matchNodeSelectorTerms (terms : List NodeSelectorTerm) (labels : Labels) : Bool :=
  terms.any (fun term => term labels)

/-- One `(name, percent)` pair of a commit class (`ResourceCommitPercent`). -/
structure ResourceCommitPercent where
  name : String
  percent : Int
deriving DecidableEq

/-- The `CommitClassSpec` structure: a node selector plus the resource commit percents. -/
structure CommitClassSpec where
  selector : NodeSelectorTerm
  resources : List ResourceCommitPercent

/-- The `CommitClass` structure: object name (from its metadata) plus its spec. -/
structure CommitClass where
  name : String
  spec : CommitClassSpec

/-- The query input: only the node's labels are consulted. -/
structure Node where
  labels : Labels

/-- The `Settings` structure: the resolved map from resource name to scale factor
(`map[string]float64`, factors modelled as exact rationals). The list never
holds two pairs with the same name: `Settings.Set` removes the old pair. -/
structure Settings where
  scales : List (String × ℚ)
deriving DecidableEq

/-- The `NewSettings` constructor: an empty scales map. -/
def NewSettings : Settings := ⟨[]⟩

/-- The `Settings.Set` method: store `percent / 100` as the scale factor for `name`,
overwriting any previous factor for `name` (map assignment). -/
def Settings.Set (s : Settings) (name : String) (percent : Int) : Settings :=
  let scaleFactor : ℚ := (percent : ℚ) / 100
  ⟨(name, scaleFactor) :: s.scales.filter (fun p => !(p.1 == name))⟩

/-- Modelled from the spec: the external resource-quantity type, kept at
milli precision so that quantities such as `1000m` are representable;
`Value` truncates to the integer value, per the spec's "integer truncation
semantics on `Value()`". -/
structure Quantity where
  milli : Int
deriving DecidableEq

/-- Modelled from the spec: `Quantity.Value()`, the integer value. -/
def Quantity.Value (q : Quantity) : Int := q.milli.tdiv 1000

/-- Modelled from the spec: `Quantity.Set(int64)` replaces the quantity's
value with the given integer. -/
def Quantity.Set (_q : Quantity) (value : Int) : Quantity := ⟨value * 1000⟩

/-- Go's `int64(x)` conversion applied to the scaled value: truncation
toward zero (`x.num.tdiv x.den` truncates toward zero since `den > 0`).
The `float64` arithmetic producing `x` is modelled as exact rational
arithmetic. -/
def int64 (x : ℚ) : Int := x.num.tdiv (x.den : Int)

/-- The `Settings.Scale` method: look up the commit level for `name`; absent means the
quantity is returned unchanged, present means the quantity is set to the
truncated product of the commit level and the quantity's integer value. -/
def Settings.Scale (s : Settings) (name : String) (quantity : Quantity) : Quantity :=
  match s.scales.lookup name with
  | none => quantity
  | some commitLevel =>
    let scaled : ℚ := commitLevel * (quantity.Value : ℚ)
    quantity.Set (int64 scaled)

/-- The `resourceWhitelist` variable: the fixed set of scalable resource names. -/
def resourceWhitelist : List String := ["cpu", "memory", "ephemeral-storage"]

/-- The `validResource` predicate: membership in the whitelist, by the source's loop. -/
def validResource (resourceName : String) : Bool :=
  resourceWhitelist.any (fun allowed => resourceName == allowed)

/-- One object of the informer store's snapshot, at the granularity
`GetCommitSettings` inspects it: either it is not of the expected
`*unstructured.Unstructured` representation, or its JSON round-trip fails
to produce a `CommitClass`, or it decodes to one. -/
inductive StoreItem where
  | wrongType (typeName : String)
  | undecodable (err : String)
  | decodable (cc : CommitClass)

/-- Whether a store item decodes into a `CommitClass`. -/
def StoreItem.isDecodable : StoreItem → Bool
  | .decodable _ => true
  | _ => false

/-- The decode loop of `GetCommitSettings` (lines 129-144): collect the
decoded commit classes, aborting with the first failing item's error. -/
def decodeItems : List StoreItem → Except String (List CommitClass)
  | [] => .ok []
  | .wrongType typeName :: _ => .error ("unexpected CommitClass type " ++ typeName)
  | .undecodable err :: _ => .error ("invalid CommitClass JSON " ++ err)
  | .decodable cc :: rest =>
    match decodeItems rest with
    | .error e => .error e
    | .ok ccs => .ok (cc :: ccs)

/-- The sort comparison `commitClasses[i].Name < commitClasses[j].Name`, as
the corresponding non-strict order used for sorting. -/
def nameLE (a b : CommitClass) : Prop := stringLeb a.name b.name = true

instance : DecidableRel nameLE :=
  fun a b => inferInstanceAs (Decidable (stringLeb a.name b.name = true))

/-- The sort `sort.Slice(commitClasses, ...)` by ascending name: the source's sort is
specified only up to a name-sorted permutation (it is not stable), which
insertion sort by `nameLE` produces. -/
def sortByName (commitClasses : List CommitClass) : List CommitClass :=
  List.insertionSort nameLE commitClasses

/-- The selector-match test of line 154, applied to one commit class. -/
def matchesNode (node : Node) (cc : CommitClass) : Bool :=
  matchNodeSelectorTerms [cc.spec.selector] node.labels

/-- The inner loop of lines 157-161: set each whitelisted resource's
percent on the settings, in sequence order. -/
def applyResources (settings : Settings) (resources : List ResourceCommitPercent) : Settings :=
  resources.foldl
    (fun s r => if validResource r.name then s.Set r.name r.percent else s) settings

/-- The loop of lines 151-164: walk the sorted commit classes, apply the
first matching one's resources and stop (`break`). -/
def resolveLoop (node : Node) (settings : Settings) : List CommitClass → Settings
  | [] => settings
  | cc :: rest =>
    if matchesNode node cc then applyResources settings cc.spec.resources
    else resolveLoop node settings rest

/-- The entry point `GetCommitSettings` (lines 125-167): decode the snapshot, sort by name,
resolve. The informer store's snapshot is the `items` argument; the Go
signature's `(*Settings, error)` pair is kept as `Option Settings × Option
String`, with each return site filling exactly one side. -/
def GetCommitSettings (items : List StoreItem) (node : Node) :
    Option Settings × Option String :=
  match decodeItems items with
  | .error e => (none, some e)
  | .ok commitClasses =>
    (some (resolveLoop node NewSettings (sortByName commitClasses)), none)

/-- The first commit class in the list matching the node, if any: the
commit class whose resources `resolveLoop` applies. -/
def firstMatch (node : Node) : List CommitClass → Option CommitClass
  | [] => none
  | cc :: rest => if matchesNode node cc then some cc else firstMatch node rest

/-- A selector term matching every node. -/
def selAll : NodeSelectorTerm := fun _ => true

/-- The spec example's selector `env=prod`: matches exactly the label sets
whose `env` label is `prod`. -/
def selEnvProd : NodeSelectorTerm := fun labels => labels.lookup "env" == some "prod"

/-- The spec example's policy `a`: selector `env=prod`, resources `[(cpu, 50)]`. -/
def policyA : CommitClass := ⟨"a", ⟨selEnvProd, [⟨"cpu", 50⟩]⟩⟩

/-- The spec example's policy `b`: selector `env=prod`, resources `[(cpu, 150)]`. -/
def policyB : CommitClass := ⟨"b", ⟨selEnvProd, [⟨"cpu", 150⟩]⟩⟩

/-- A policy matching every node, whose resources mix a non-whitelisted name
(`gpu`) with a whitelisted one (`memory`), as in the spec's third example. -/
def policyMixed : CommitClass := ⟨"m", ⟨selAll, [⟨"gpu", 200⟩, ⟨"memory", 80⟩]⟩⟩

/-- A policy matching every node whose only resource name (`gpu`) is outside
the whitelist. -/
def policyGpu : CommitClass := ⟨"g", ⟨selAll, [⟨"gpu", 200⟩]⟩⟩

/-- The spec example's node, labelled `env=prod`. -/
def prodNode : Node := ⟨[("env", "prod")]⟩

/-! ### Order lemmas for the byte-wise string comparison -/

theorem charListLe_refl (a : List Char) : charListLe a a = true := by
  induction a with
  | nil => rfl
  | cons c cs ih => simp [charListLe, ih]

theorem charListLe_total (a b : List Char) :
    charListLe a b = true ∨ charListLe b a = true := by
  induction a generalizing b with
  | nil => exact Or.inl rfl
  | cons c cs ih =>
    cases b with
    | nil => exact Or.inr rfl
    | cons d ds =>
      by_cases h : c = d
      · subst h
        simpa [charListLe] using ih ds
      · rcases lt_trichotomy c d with hlt | heq | hgt
        · exact Or.inl (by simp [charListLe, h, hlt])
        · exact absurd heq h
        · exact Or.inr (by simp [charListLe, Ne.symm h, hgt])

theorem charListLe_trans (a b c : List Char) (hab : charListLe a b = true)
    (hbc : charListLe b c = true) : charListLe a c = true := by
  induction a generalizing b c with
  | nil => rfl
  | cons x xs ih =>
    cases b with
    | nil => simp [charListLe] at hab
    | cons y ys =>
      cases c with
      | nil => simp [charListLe] at hbc
      | cons z zs =>
        by_cases hxy : x = y
        · subst hxy
          by_cases hxz : x = z
          · subst hxz
            simp only [charListLe, if_pos rfl] at hab hbc ⊢
            exact ih ys zs hab hbc
          · simp only [charListLe, if_neg hxz] at hbc ⊢
            exact hbc
        · by_cases hyz : y = z
          · subst hyz
            simp only [charListLe, if_neg hxy] at hab ⊢
            exact hab
          · simp only [charListLe, if_neg hxy] at hab
            simp only [charListLe, if_neg hyz] at hbc
            have hxz : x < z :=
              lt_trans (of_decide_eq_true hab) (of_decide_eq_true hbc)
            simp [charListLe, ne_of_lt hxz, hxz]

theorem nameLE_total (a b : CommitClass) : nameLE a b ∨ nameLE b a :=
  charListLe_total a.name.data b.name.data

theorem nameLE_trans (a b c : CommitClass) (hab : nameLE a b) (hbc : nameLE b c) :
    nameLE a c :=
  charListLe_trans a.name.data b.name.data c.name.data hab hbc

theorem nameLE_refl (a : CommitClass) : nameLE a a :=
  charListLe_refl a.name.data

/-! ### Properties of the sort and the resolution loop -/

theorem sortByName_perm (l : List CommitClass) : List.Perm (sortByName l) l :=
  List.perm_insertionSort nameLE l

theorem sortByName_sorted (l : List CommitClass) :
    List.Pairwise nameLE (sortByName l) :=
  @List.sorted_insertionSort CommitClass nameLE inferInstance
    ⟨nameLE_total⟩ ⟨nameLE_trans⟩ l

theorem resolveLoop_eq_firstMatch (node : Node) (s : Settings)
    (l : List CommitClass) :
    resolveLoop node s l =
      match firstMatch node l with
      | none => s
      | some cc => applyResources s cc.spec.resources := by
  induction l with
  | nil => rfl
  | cons cc rest ih =>
    cases h : matchesNode node cc
    · simp [resolveLoop, firstMatch, h, ih]
    · simp [resolveLoop, firstMatch, h]

theorem firstMatch_isSome (node : Node) (l : List CommitClass) (cc : CommitClass)
    (hmem : cc ∈ l) (hmatch : matchesNode node cc = true) :
    ∃ p, firstMatch node l = some p := by
  induction l with
  | nil => cases hmem
  | cons hd rest ih =>
    cases hhd : matchesNode node hd
    · rcases List.mem_cons.mp hmem with rfl | hmem'
      · rw [hhd] at hmatch; cases hmatch
      · rcases ih hmem' with ⟨p, hp⟩
        exact ⟨p, by simp [firstMatch, hhd, hp]⟩
    · exact ⟨hd, by simp [firstMatch, hhd]⟩

theorem firstMatch_min (node : Node) (l : List CommitClass) (p : CommitClass)
    (hsorted : List.Pairwise nameLE l) (hfm : firstMatch node l = some p) :
    p ∈ l ∧ matchesNode node p = true ∧
      ∀ q ∈ l, matchesNode node q = true → nameLE p q := by
  induction l with
  | nil => cases hfm
  | cons hd rest ih =>
    rcases List.pairwise_cons.mp hsorted with ⟨hhd_le, hrest⟩
    cases hhd : matchesNode node hd
    · simp only [firstMatch, hhd, Bool.false_eq_true, if_false] at hfm
      rcases ih hrest hfm with ⟨hmem, hmatch, hmin⟩
      refine ⟨List.mem_cons_of_mem hd hmem, hmatch, ?_⟩
      intro q hq hqm
      rcases List.mem_cons.mp hq with rfl | hq'
      · rw [hhd] at hqm; cases hqm
      · exact hmin q hq' hqm
    · simp only [firstMatch, hhd, if_true] at hfm
      injection hfm with hfm
      subst hfm
      refine ⟨List.mem_cons_self _ _, hhd, ?_⟩
      intro q hq hqm
      rcases List.mem_cons.mp hq with rfl | hq'
      · exact nameLE_refl q
      · exact hhd_le q hq'

theorem resolveLoop_of_no_match (node : Node) (s : Settings) (l : List CommitClass)
    (h : ∀ cc ∈ l, matchesNode node cc = false) : resolveLoop node s l = s := by
  induction l with
  | nil => rfl
  | cons hd rest ih =>
    have hhd := h hd (List.mem_cons_self hd rest)
    simp [resolveLoop, hhd, ih (fun cc hcc => h cc (List.mem_cons_of_mem hd hcc))]

/-! ### Properties of settings construction and scaling -/

theorem applyResources_cons (s : Settings) (r : ResourceCommitPercent)
    (rest : List ResourceCommitPercent) :
    applyResources s (r :: rest) =
      applyResources (if validResource r.name then s.Set r.name r.percent else s) rest :=
  rfl

theorem applyResources_of_invalid (s : Settings) (resources : List ResourceCommitPercent)
    (h : ∀ r ∈ resources, validResource r.name = false) : applyResources s resources = s := by
  induction resources generalizing s with
  | nil => rfl
  | cons r rest ih =>
    rw [applyResources_cons, h r (List.mem_cons_self r rest)]
    simp only [Bool.false_eq_true, if_false]
    exact ih s (fun x hx => h x (List.mem_cons_of_mem r hx))

theorem scales_valid_applyResources (s : Settings) (resources : List ResourceCommitPercent)
    (hs : ∀ p ∈ s.scales, validResource p.1 = true) :
    ∀ p ∈ (applyResources s resources).scales, validResource p.1 = true := by
  induction resources generalizing s with
  | nil => exact hs
  | cons r rest ih =>
    rw [applyResources_cons]
    apply ih
    cases hv : validResource r.name
    · simpa [hv] using hs
    · simp only [hv, if_true]
      intro p hp
      rcases List.mem_cons.mp hp with rfl | hp'
      · exact hv
      · exact hs p (List.mem_filter.mp hp').1

theorem lookup_filter_ne (k k' : String) (l : List (String × ℚ)) (h : k ≠ k') :
    (l.filter (fun p => !(p.1 == k'))).lookup k = l.lookup k := by
  induction l with
  | nil => rfl
  | cons hd rest ih =>
    by_cases h1 : hd.1 = k'
    · have hk2 : (k == k') = false := by simp [h]
      simp [List.filter, List.lookup, h1, hk2, ih]
    · simp only [List.filter, List.lookup]
      have hkeep : (!(hd.1 == k')) = true := by simp [h1]
      rw [hkeep]
      simp only [List.lookup]
      cases hk : (k == hd.1)
      · simp [ih]
      · rfl

theorem Set_lookup_self (s : Settings) (name : String) (percent : Int) :
    (s.Set name percent).scales.lookup name = some ((percent : ℚ) / 100) := by
  simp [Settings.Set, List.lookup]

theorem Set_lookup_ne (s : Settings) (name name' : String) (percent : Int)
    (h : name' ≠ name) :
    (s.Set name percent).scales.lookup name' = s.scales.lookup name' := by
  have hk : (name' == name) = false := by simp [h]
  simp only [Settings.Set, List.lookup, hk]
  exact lookup_filter_ne name' name s.scales h

theorem int64_eq_zero_of_lt_one (x : ℚ) (h0 : 0 ≤ x) (h1 : x < 1) : int64 x = 0 := by
  apply Int.tdiv_eq_zero_of_lt
  · exact Rat.num_nonneg.mpr h0
  · exact_mod_cast Rat.lt_one_iff_num_lt_denom.mp h1

theorem applyResources_lookup_last (resources : List ResourceCommitPercent)
    (nm : String) (s : Settings) (hvalid : validResource nm = true) :
    (applyResources s resources).scales.lookup nm =
      match (resources.filter (fun r => r.name == nm)).getLast? with
      | some r => some ((r.percent : ℚ) / 100)
      | none => s.scales.lookup nm := by
  induction resources generalizing s with
  | nil => rfl
  | cons r rest ih =>
    rw [applyResources_cons]
    by_cases hname : r.name = nm
    · have hbeq : (r.name == nm) = true := by simp [hname]
      have hv : validResource r.name = true := by rw [hname]; exact hvalid
      rw [@List.filter_cons_of_pos _ (fun x => x.name == nm) r rest hbeq,
        List.getLast?_cons, ih]
      cases hlast : (List.filter (fun x => x.name == nm) rest).getLast? with
      | some r' => simp [hlast]
      | none =>
        simp only [hlast, Option.getD_none]
        simp only [hv, if_true]
        rw [← hname]
        exact Set_lookup_self s r.name r.percent
    · have hbeq : (r.name == nm) = false := by simp [hname]
      rw [@List.filter_cons_of_neg _ (fun x => x.name == nm) r rest (by simp [hbeq]), ih]
      have hlook : (if validResource r.name then s.Set r.name r.percent else s).scales.lookup nm
          = s.scales.lookup nm := by
        cases hv : validResource r.name
        · simp
        · simpa using Set_lookup_ne s r.name nm r.percent (fun hh => hname hh.symm)
      rw [hlook]

/-! ### Unfolding of the resolution entry point -/

theorem GetCommitSettings_ok (items : List StoreItem) (node : Node)
    (ccs : List CommitClass) (hdec : decodeItems items = .ok ccs) :
    GetCommitSettings items node =
      (some (resolveLoop node NewSettings (sortByName ccs)), none) := by
  unfold GetCommitSettings
  rw [hdec]

theorem GetCommitSettings_error (items : List StoreItem) (node : Node) (e : String)
    (hdec : decodeItems items = .error e) :
    GetCommitSettings items node = (none, some e) := by
  unfold GetCommitSettings
  rw [hdec]

theorem decodeItems_error_of_bad (items : List StoreItem) (item : StoreItem)
    (hmem : item ∈ items) (hbad : item.isDecodable = false) :
    ∃ e, decodeItems items = .error e := by
  induction items with
  | nil => cases hmem
  | cons hd rest ih =>
    cases hd with
    | wrongType t => exact ⟨_, rfl⟩
    | undecodable e => exact ⟨_, rfl⟩
    | decodable cc =>
      rcases List.mem_cons.mp hmem with rfl | hmem'
      · simp [StoreItem.isDecodable] at hbad
      · rcases ih hmem' with ⟨e, he⟩
        exact ⟨e, by simp [decodeItems, he]⟩

/-! ### Evaluation of the spec's worked example -/

theorem exampleResolved :
    GetCommitSettings [.decodable policyB, .decodable policyA] prodNode =
      (some (applyResources NewSettings policyA.spec.resources), none) := rfl

theorem exampleSettings :
    applyResources NewSettings policyA.spec.resources =
      ⟨[("cpu", ((50 : Int) : ℚ) / 100)]⟩ := rfl

theorem exampleScaled :
    Settings.Scale ⟨[("cpu", ((50 : Int) : ℚ) / 100)]⟩ "cpu" ⟨1000⟩ = ⟨0⟩ := by
  show Quantity.Set ⟨1000⟩
    (int64 (((50 : Int) : ℚ) / 100 * ((Quantity.Value ⟨1000⟩ : Int) : ℚ))) = ⟨0⟩
  have hv : Quantity.Value ⟨1000⟩ = (1 : Int) := rfl
  rw [hv]
  have h64 : int64 (((50 : Int) : ℚ) / 100 * ((1 : Int) : ℚ)) = 0 := by
    apply int64_eq_zero_of_lt_one
    · norm_num
    · norm_num
  rw [h64]
  rfl

/-! ### Claims -/

/-- C1: for every decodable policy set and node with more than one matching
policy, `GetCommitSettings` builds its settings from exactly one matching
policy whose name is byte-wise lexically least among all matching policies;
the other matching policies contribute nothing to the result. -/
theorem c1_lexically_smallest_match_wins (items : List StoreItem) (node : Node)
    (ccs : List CommitClass) (hdec : decodeItems items = .ok ccs)
    (hmulti : 1 < (ccs.filter (matchesNode node)).length) :
    ∃ p, p ∈ ccs ∧ matchesNode node p = true ∧
      (∀ q ∈ ccs, matchesNode node q = true → stringLeb p.name q.name = true) ∧
      GetCommitSettings items node =
        (some (applyResources NewSettings p.spec.resources), none) := by
  have hperm := sortByName_perm ccs
  have hsorted := sortByName_sorted ccs
  have hex : ∃ cc, cc ∈ ccs ∧ matchesNode node cc = true := by
    have hne : ccs.filter (matchesNode node) ≠ [] := by
      intro hnil
      rw [hnil] at hmulti
      simp at hmulti
    rcases List.exists_mem_of_ne_nil _ hne with ⟨cc, hcc⟩
    have h := List.mem_filter.mp hcc
    exact ⟨cc, h.1, h.2⟩
  rcases hex with ⟨cc, hccmem, hccmatch⟩
  rcases firstMatch_isSome node (sortByName ccs) cc (hperm.mem_iff.mpr hccmem) hccmatch
    with ⟨p, hp⟩
  rcases firstMatch_min node (sortByName ccs) p hsorted hp with ⟨hpmem, hpmatch, hpmin⟩
  refine ⟨p, hperm.mem_iff.mp hpmem, hpmatch, ?_, ?_⟩
  · intro q hq hqm
    exact hpmin q (hperm.mem_iff.mpr hq) hqm
  · rw [GetCommitSettings_ok items node ccs hdec, resolveLoop_eq_firstMatch, hp]

/-- C1 witness: the spec example's two matching policies on the prod node. -/
theorem c1_witness :
    decodeItems [.decodable policyB, .decodable policyA] = .ok [policyB, policyA] ∧
    1 < (([policyB, policyA] : List CommitClass).filter (matchesNode prodNode)).length ∧
    ∃ p, p ∈ ([policyB, policyA] : List CommitClass) ∧ matchesNode prodNode p = true ∧
      (∀ q ∈ ([policyB, policyA] : List CommitClass),
        matchesNode prodNode q = true → stringLeb p.name q.name = true) ∧
      GetCommitSettings [.decodable policyB, .decodable policyA] prodNode =
        (some (applyResources NewSettings p.spec.resources), none) :=
  ⟨rfl, by decide,
    c1_lexically_smallest_match_wins [.decodable policyB, .decodable policyA]
      prodNode [policyB, policyA] rfl (by decide)⟩

/-- C2 counterexample: at the spec's worked example (policies `b` with cpu
150 percent and `a` with cpu 50 percent, node labelled `env=prod`), the
resolution does produce policy `a`'s settings, but `Scale` applied to the
cpu quantity `1000m` does not return `500m`: the quantity's integer value
`1` is scaled to `1/2` and truncated toward zero, giving `0`. -/
theorem c2_counterexample :
    GetCommitSettings [.decodable policyB, .decodable policyA] prodNode =
      (some (applyResources NewSettings policyA.spec.resources), none) ∧
    applyResources NewSettings policyA.spec.resources =
      ⟨[("cpu", ((50 : Int) : ℚ) / 100)]⟩ ∧
    Settings.Scale ⟨[("cpu", ((50 : Int) : ℚ) / 100)]⟩ "cpu" ⟨1000⟩ ≠ ⟨500⟩ :=
  ⟨exampleResolved, exampleSettings, by rw [exampleScaled]; decide⟩

/-- C2 (amended): on the spec's worked example, `GetCommitSettings` resolves
policy `a` (the lexically first match), its settings scale cpu by the factor
`1/2`, and `Scale` on the cpu quantity `1000m` returns `0` — the quantity's
integer value `1` is halved and truncated toward zero. -/
theorem c2_example_resolution :
    GetCommitSettings [.decodable policyB, .decodable policyA] prodNode =
      (some (applyResources NewSettings policyA.spec.resources), none) ∧
    applyResources NewSettings policyA.spec.resources =
      ⟨[("cpu", ((50 : Int) : ℚ) / 100)]⟩ ∧
    ((50 : Int) : ℚ) / 100 = 1 / 2 ∧
    Settings.Scale ⟨[("cpu", ((50 : Int) : ℚ) / 100)]⟩ "cpu" ⟨1000⟩ = ⟨0⟩ :=
  ⟨exampleResolved, exampleSettings, by norm_num, exampleScaled⟩

/-- C3: whenever some snapshot item is of the wrong representation or fails
to decode, `GetCommitSettings` returns an error and a nil settings pointer,
regardless of the other items. -/
theorem c3_decode_failure_fatal (items : List StoreItem) (node : Node)
    (item : StoreItem) (hmem : item ∈ items) (hbad : item.isDecodable = false) :
    ∃ e, GetCommitSettings items node = (none, some e) := by
  rcases decodeItems_error_of_bad items item hmem hbad with ⟨e, he⟩
  exact ⟨e, GetCommitSettings_error items node e he⟩

/-- C3 witness: a wrong-typed item next to a perfectly decodable policy. -/
theorem c3_witness :
    (StoreItem.wrongType "int") ∈
      ([.wrongType "int", .decodable policyA] : List StoreItem) ∧
    (StoreItem.wrongType "int").isDecodable = false ∧
    ∃ e, GetCommitSettings [.wrongType "int", .decodable policyA] prodNode =
      (none, some e) :=
  ⟨List.mem_cons_self _ _, rfl,
    c3_decode_failure_fatal [.wrongType "int", .decodable policyA] prodNode
      (.wrongType "int") (List.mem_cons_self _ _) rfl⟩

/-- C4: on every decodable policy set, `GetCommitSettings` succeeds with no
error and every entry of the returned settings carries a whitelisted
resource name — non-whitelisted names in the matched policy's resource list
produce neither an entry nor an error. -/
theorem c4_entries_whitelisted (items : List StoreItem) (node : Node)
    (ccs : List CommitClass) (hdec : decodeItems items = .ok ccs) :
    ∃ s, GetCommitSettings items node = (some s, none) ∧
      ∀ p ∈ s.scales, validResource p.1 = true := by
  refine ⟨resolveLoop node NewSettings (sortByName ccs),
    GetCommitSettings_ok items node ccs hdec, ?_⟩
  rw [resolveLoop_eq_firstMatch]
  cases hfm : firstMatch node (sortByName ccs) with
  | none =>
    intro p hp
    simp [NewSettings] at hp
  | some cc =>
    exact scales_valid_applyResources NewSettings cc.spec.resources
      (fun p hp => by simp [NewSettings] at hp)

/-- C4 witness: a matched policy listing both `gpu` (non-whitelisted) and
`memory` (whitelisted). -/
theorem c4_witness :
    decodeItems [.decodable policyMixed] = .ok [policyMixed] ∧
    ∃ s, GetCommitSettings [.decodable policyMixed] ⟨[]⟩ = (some s, none) ∧
      ∀ p ∈ s.scales, validResource p.1 = true :=
  ⟨rfl, c4_entries_whitelisted [.decodable policyMixed] ⟨[]⟩ [policyMixed] rfl⟩

/-- C6: on every decodable policy set in which no policy matches the node,
`GetCommitSettings` returns a settings with no entries and no error. -/
theorem c6_no_match_returns_empty (items : List StoreItem) (node : Node)
    (ccs : List CommitClass) (hdec : decodeItems items = .ok ccs)
    (hnone : ∀ cc ∈ ccs, matchesNode node cc = false) :
    GetCommitSettings items node = (some ⟨[]⟩, none) := by
  rw [GetCommitSettings_ok items node ccs hdec,
    resolveLoop_of_no_match node NewSettings (sortByName ccs)
      (fun cc hcc => hnone cc ((sortByName_perm ccs).mem_iff.mp hcc))]
  rfl

/-- C6 witness: the spec example's policies against a staging-labelled node. -/
theorem c6_witness :
    decodeItems [.decodable policyB, .decodable policyA] = .ok [policyB, policyA] ∧
    (∀ cc ∈ ([policyB, policyA] : List CommitClass),
      matchesNode ⟨[("env", "staging")]⟩ cc = false) ∧
    GetCommitSettings [.decodable policyB, .decodable policyA]
      ⟨[("env", "staging")]⟩ = (some ⟨[]⟩, none) :=
  ⟨rfl, by decide,
    c6_no_match_returns_empty [.decodable policyB, .decodable policyA]
      ⟨[("env", "staging")]⟩ [policyB, policyA] rfl (by decide)⟩

/-- C7: for every settings without an entry for the queried resource name,
`Scale` returns the input quantity unchanged. -/
theorem c7_scale_without_entry_identity (s : Settings) (name : String) (q : Quantity)
    (h : s.scales.lookup name = none) : s.Scale name q = q := by
  simp [Settings.Scale, h]

/-- C7 witness: scaling the memory quantity `2Gi` through empty settings. -/
theorem c7_witness :
    NewSettings.scales.lookup "memory" = none ∧
    NewSettings.Scale "memory" ⟨2147483648000⟩ = ⟨2147483648000⟩ :=
  ⟨rfl, c7_scale_without_entry_identity NewSettings "memory" ⟨2147483648000⟩ rfl⟩

/-- C8: when the matched policy's resource sequence holds two or more pairs
with the same whitelisted name, the settings entry for that name is the
factor of the last such pair in sequence order. -/
theorem c8_duplicate_name_last_wins (resources : List ResourceCommitPercent)
    (nm : String) (r : ResourceCommitPercent)
    (hvalid : validResource nm = true)
    (_hdup : 1 < (resources.filter (fun x => x.name == nm)).length)
    (hlast : (resources.filter (fun x => x.name == nm)).getLast? = some r) :
    (applyResources NewSettings resources).scales.lookup nm =
      some ((r.percent : ℚ) / 100) := by
  rw [applyResources_lookup_last resources nm NewSettings hvalid, hlast]

/-- C8 witness: cpu listed twice, the later 50-percent entry wins. -/
theorem c8_witness :
    validResource "cpu" = true ∧
    1 < (([⟨"cpu", 150⟩, ⟨"cpu", 50⟩] : List ResourceCommitPercent).filter
      (fun x => x.name == "cpu")).length ∧
    (([⟨"cpu", 150⟩, ⟨"cpu", 50⟩] : List ResourceCommitPercent).filter
      (fun x => x.name == "cpu")).getLast? = some ⟨"cpu", 50⟩ ∧
    (applyResources NewSettings [⟨"cpu", 150⟩, ⟨"cpu", 50⟩]).scales.lookup "cpu" =
      some (((50 : Int) : ℚ) / 100) :=
  ⟨by decide, by decide, by decide,
    c8_duplicate_name_last_wins [⟨"cpu", 150⟩, ⟨"cpu", 50⟩] "cpu" ⟨"cpu", 50⟩
      (by decide) (by decide) (by decide)⟩

/-- C9: on every snapshot and node, `GetCommitSettings` returns either a
settings with no error or an error with no settings — never both sides nil
and never both sides non-nil. -/
theorem c9_settings_xor_error (items : List StoreItem) (node : Node) :
    (∃ s, GetCommitSettings items node = (some s, none)) ∨
    (∃ e, GetCommitSettings items node = (none, some e)) := by
  cases hdec : decodeItems items with
  | error e => exact Or.inr ⟨e, GetCommitSettings_error items node e hdec⟩
  | ok ccs => exact Or.inl ⟨_, GetCommitSettings_ok items node ccs hdec⟩

/-- C10: when the first matching policy in sorted order lists only
non-whitelisted resource names (or none at all), `GetCommitSettings` returns
an empty settings and no error, exactly like the no-match case. -/
theorem c10_matched_policy_without_whitelisted (items : List StoreItem) (node : Node)
    (ccs : List CommitClass) (p : CommitClass)
    (hdec : decodeItems items = .ok ccs)
    (hfm : firstMatch node (sortByName ccs) = some p)
    (hres : ∀ r ∈ p.spec.resources, validResource r.name = false) :
    GetCommitSettings items node = (some ⟨[]⟩, none) := by
  rw [GetCommitSettings_ok items node ccs hdec, resolveLoop_eq_firstMatch, hfm]
  show (some (applyResources NewSettings p.spec.resources), none) = (some ⟨[]⟩, none)
  rw [applyResources_of_invalid NewSettings p.spec.resources hres]
  rfl

/-- C10 witness: a matching gpu-only policy yields empty settings. -/
theorem c10_witness :
    decodeItems [.decodable policyGpu] = .ok [policyGpu] ∧
    firstMatch ⟨[]⟩ (sortByName [policyGpu]) = some policyGpu ∧
    (∀ r ∈ policyGpu.spec.resources, validResource r.name = false) ∧
    GetCommitSettings [.decodable policyGpu] ⟨[]⟩ = (some ⟨[]⟩, none) :=
  ⟨rfl, rfl, by decide,
    c10_matched_policy_without_whitelisted [.decodable policyGpu] ⟨[]⟩
      [policyGpu] policyGpu rfl rfl (by decide)⟩
